import Mathlib

/-!
Shallow embedding of the latex_rs document compiler
(lexer, parser, macro expander, layout engine) together with proofs
of the properties stated in its specification.

Modelling conventions:
- Rust f64 width arithmetic is modelled with exact rationals.
- Rust String byte length is modelled as character count, and the
  regex/Unicode whitespace classes as Char.isWhitespace (the inputs of
  interest are ASCII, where these coincide).
- Rust panics are modelled by an Option result (none = panic).
-/

namespace LatexRs

/-! ### AST (src/ast.rs) -/

inductive TextStyle
  | Normal
  | Bold
  | Italic
  deriving DecidableEq, Repr, Inhabited

inductive Node
  | Text (s : String)
  | StyledText (s : String) (style : TextStyle)
  | Macro (name : String) (args : List Node)
  | Seq (children : List Node)
  deriving Repr, Inhabited

mutual

/-- Structural equality test on trees (Rust derives PartialEq). -/
def nodeBEq : Node → Node → Bool
  | .Text s, .Text t => s == t
  | .StyledText s st, .StyledText t st2 => s == t && st == st2
  | .Macro n a, .Macro m b => n == m && nodeListBEq a b
  | .Seq a, .Seq b => nodeListBEq a b
  | _, _ => false

def nodeListBEq : List Node → List Node → Bool
  | [], [] => true
  | x :: xs, y :: ys => nodeBEq x y && nodeListBEq xs ys
  | _, _ => false

end

mutual

theorem nodeBEq_iff : ∀ a b : Node, nodeBEq a b = true ↔ a = b
  | .Text s, .Text t => by simp [nodeBEq]
  | .StyledText s st, .StyledText t st2 => by simp [nodeBEq]
  | .Macro n a, .Macro m b => by
      simp [nodeBEq, nodeListBEq_iff a b]
  | .Seq a, .Seq b => by simp [nodeBEq, nodeListBEq_iff a b]
  | .Text _, .StyledText _ _ | .Text _, .Macro _ _ | .Text _, .Seq _
  | .StyledText _ _, .Text _ | .StyledText _ _, .Macro _ _ | .StyledText _ _, .Seq _
  | .Macro _ _, .Text _ | .Macro _ _, .StyledText _ _ | .Macro _ _, .Seq _
  | .Seq _, .Text _ | .Seq _, .StyledText _ _ | .Seq _, .Macro _ _ => by
      simp [nodeBEq]

theorem nodeListBEq_iff : ∀ a b : List Node, nodeListBEq a b = true ↔ a = b
  | [], [] => by simp [nodeListBEq]
  | x :: xs, y :: ys => by
      simp [nodeListBEq, nodeBEq_iff x y, nodeListBEq_iff xs ys]
  | [], _ :: _ => by simp [nodeListBEq]
  | _ :: _, [] => by simp [nodeListBEq]

end

instance : DecidableEq Node := fun a b => decidable_of_iff _ (nodeBEq_iff a b)

/-! ### Lexer (src/lexer.rs)

The Rust lexer is generated by logos from the rule set
Comment `%[^\n]*` (skip), LBrace, RBrace, Command `\\[a-zA-Z]+`
(priority 2), Whitespace `\s+` (skip), CppComment `//[^\n]*` (skip,
default priority 4), Text `[^\\\x7b\x7d\s%]+` (priority 1), Error
(fallback).  logos picks, at each position, the longest match, breaking
ties by priority.  The only overlap is CppComment vs Text at a position
starting with two slashes, where the CppComment match is always at least
as long (its only stop character, newline, is also a Text stop
character) and has the higher priority, so the comment wins.  The
skipped variants are kept in the token type but never emitted, as in the
Rust enum.  Error recovery is modelled as consuming one character.
Spans (byte offsets) are omitted: no verified property uses them. -/

inductive Token
  | Comment
  | LBrace
  | RBrace
  | Command (name : String)
  | Whitespace
  | CppComment
  | Text (content : String)
  | Error
  deriving DecidableEq, Repr

/-- Characters matched by the Text rule: anything but backslash, braces,
whitespace and the comment marker. -/
def isTextChar (c : Char) : Bool :=
  !(c = '\\' || c = '\x7b' || c = '\x7d' || c = '%' || c.isWhitespace)

/-- Does the input start with two slashes (start of a C++-style comment)? -/
def startsCppComment : List Char → Bool
  | '/' :: '/' :: _ => true
  | _ => false

/-- One lexing pass, fuelled to make the recursion structural; every step
consumes at least one character, so fuel equal to the input length is
always sufficient (out of fuel is unreachable from lexTokens). -/
def lexListF : Nat → List Char → List Token
  | 0, _ => []
  | _ + 1, [] => []
  | fuel + 1, c :: rest =>
    if c = '%' then
      lexListF fuel (rest.dropWhile (fun d => !(d = '\n')))
    else if c.isWhitespace then
      lexListF fuel (rest.dropWhile Char.isWhitespace)
    else if c = '\x7b' then
      Token.LBrace :: lexListF fuel rest
    else if c = '\x7d' then
      Token.RBrace :: lexListF fuel rest
    else if c = '\\' then
      if (rest.takeWhile Char.isAlpha).isEmpty then
        Token.Error :: lexListF fuel rest
      else
        Token.Command (String.mk (rest.takeWhile Char.isAlpha)) ::
          lexListF fuel (rest.dropWhile Char.isAlpha)
    else if startsCppComment (c :: rest) then
      lexListF fuel (rest.dropWhile (fun d => !(d = '\n')))
    else
      Token.Text (String.mk (c :: rest.takeWhile isTextChar)) ::
        lexListF fuel (rest.dropWhile isTextChar)

/-- lex (src/lexer.rs): tokenize the whole input. -/
def lexTokens (cs : List Char) : List Token :=
  lexListF cs.length cs

def lex (s : String) : List Token :=
  lexTokens s.data

example : lex "Hello" = [Token.Text "Hello"] := by decide
example : lex "\\textbf" = [Token.Command "textbf"] := by decide
example : lex "\x7b \x7d" = [Token.LBrace, Token.RBrace] := by decide
example : lex "\\emph\x7bWord\x7d and text" =
    [Token.Command "emph", Token.LBrace, Token.Text "Word", Token.RBrace,
     Token.Text "and", Token.Text "text"] := by decide
example : lex "Text % comment\nMore" =
    [Token.Text "Text", Token.Text "More"] := by decide
example : lex "//x" = [] := by decide

/-! ### Parser (src/parser.rs)

parse builds the token vector and parses one sequence from position 0.
The Rust parser reports errors as formatted strings; the embedding keeps
the same error sites as a structured type:
UnexpectedToken = "Unexpected token at pos: tok",
UnclosedGroup   = "Unclosed at pos",
ExpectedLBrace  = "Expected at pos, found tok" (defensive, unreachable),
TrailingTokens  = "Unexpected tokens remaining at pos".
The mutual recursion is made structural with fuel; every nested call
either consumes a token or moves one phase down (sequence, node, group),
so the initial fuel 3 * length + 3 is never exhausted (out of fuel is
modelled as an UnexpectedToken error, an unreachable branch). -/

inductive ParseError
  | UnexpectedToken (pos : Nat)
  | UnclosedGroup (pos : Nat)
  | ExpectedLBrace (pos : Nat)
  | TrailingTokens (pos : Nat)
  deriving DecidableEq, Repr

mutual

/-- parse_sequence (src/parser.rs): the while loop, with the children
accumulated so far. -/
def parseSequenceAux : Nat → List Token → Nat → List Node →
    Except ParseError (Node × Nat)
  | 0, _, pos, _ => .error (.UnexpectedToken pos)
  | fuel + 1, toks, pos, children =>
    match toks[pos]? with
    | none => .ok (.Seq children, pos)
    | some Token.RBrace => .ok (.Seq children, pos)
    | some _ =>
      match parseNode fuel toks pos with
      | .error e => .error e
      | .ok (node, newPos) => parseSequenceAux fuel toks newPos (children ++ [node])

/-- parse_node (src/parser.rs). -/
def parseNode : Nat → List Token → Nat → Except ParseError (Node × Nat)
  | 0, _, pos => .error (.UnexpectedToken pos)
  | fuel + 1, toks, pos =>
    match toks[pos]? with
    | some (Token.Text text) => .ok (.Text text, pos + 1)
    | some (Token.Command name) =>
      if toks[pos + 1]? = some Token.LBrace then
        match parseGroup fuel toks (pos + 1) with
        | .error e => .error e
        | .ok (argNode, newPos) => .ok (.Macro name [argNode], newPos)
      else
        .ok (.Macro name [], pos + 1)
    | some Token.LBrace => parseGroup fuel toks pos
    | _ => .error (.UnexpectedToken pos)

/-- parse_group (src/parser.rs). -/
def parseGroup : Nat → List Token → Nat → Except ParseError (Node × Nat)
  | 0, _, pos => .error (.UnexpectedToken pos)
  | fuel + 1, toks, pos =>
    match toks[pos]? with
    | some Token.LBrace =>
      match parseSequenceAux fuel toks (pos + 1) [] with
      | .error e => .error e
      | .ok (inner, cur) =>
        if toks[cur]? = some Token.RBrace then .ok (inner, cur + 1)
        else .error (.UnclosedGroup pos)
    | _ => .error (.ExpectedLBrace pos)

end

/-- parse (src/parser.rs): lex, parse one sequence, and require that the
whole token stream was consumed. -/
def parse (input : String) : Except ParseError Node :=
  let toks := lex input
  match parseSequenceAux (3 * toks.length + 3) toks 0 [] with
  | .error e => .error e
  | .ok (ast, pos) =>
    if pos = toks.length then .ok ast else .error (.TrailingTokens pos)

instance {α β : Type} [DecidableEq α] [DecidableEq β] :
    DecidableEq (Except α β) := fun a b =>
  match a, b with
  | .ok x, .ok y => decidable_of_iff (x = y) (by simp)
  | .error x, .error y => decidable_of_iff (x = y) (by simp)
  | .ok _, .error _ => isFalse (by simp)
  | .error _, .ok _ => isFalse (by simp)

example : parse "Hello" = .ok (.Seq [.Text "Hello"]) := by decide
example : parse "\x7bHi there\x7d" =
    .ok (.Seq [.Seq [.Text "Hi", .Text "there"]]) := by decide
example : parse "\\textbf\x7bBold\x7d" =
    .ok (.Seq [.Macro "textbf" [.Seq [.Text "Bold"]]]) := by decide
example : parse "\x7bA" = .error (.UnclosedGroup 0) := by decide
example : parse "\x7d" = .error (.TrailingTokens 0) := by decide

/-! ### Macro expander (src/expand.rs) -/

/-- Vec join with a single space separator (Rust `.join(" ")` on the
collected child strings). -/
def joinSpace : List String → String
  | [] => ""
  | [s] => s
  | s :: rest => s ++ " " ++ joinSpace rest

mutual

/-- collect_plain_text (src/expand.rs): flatten one macro argument to a
plain string; every non-text node contributes the empty string, and a
Seq joins the strings of all of its children with one space. -/
def collect_plain_text : Node → String
  | .Text s => s
  | .StyledText s _ => s
  | .Seq children => joinSpace (collectList children)
  | .Macro _ _ => ""

def collectList : List Node → List String
  | [] => []
  | n :: rest => collect_plain_text n :: collectList rest

end

/-- The splice step shared by the Seq and Macro cases of expand_macros:
children that are Seq have their elements spliced in, one level. -/
def spliceSeqs : List Node → List Node
  | [] => []
  | .Seq inner :: rest => inner ++ spliceSeqs rest
  | other :: rest => other :: spliceSeqs rest

mutual

/-- expand_macros (src/expand.rs). -/
def expand_macros : Node → Node
  | .Text s => .Text s
  | .StyledText s style => .StyledText s style
  | .Seq children => .Seq (spliceSeqs (expandArgs children))
  | .Macro name args =>
    let ea := expandArgs args
    if name = "textbf" ∧ ea.length = 1 then
      .StyledText (collect_plain_text ea.headI) .Bold
    else if name = "emph" ∧ ea.length = 1 then
      .StyledText (collect_plain_text ea.headI) .Italic
    else
      .Macro name (spliceSeqs ea)

/-- The argument-wise expansion (`args.iter().map(expand_macros)`). -/
def expandArgs : List Node → List Node
  | [] => []
  | a :: rest => expand_macros a :: expandArgs rest

end

example :
    expand_macros (.Seq [.Text "A", .Seq [.Text "B", .Text "C"], .Text "D"]) =
      .Seq [.Text "A", .Text "B", .Text "C", .Text "D"] := by decide
example :
    expand_macros (.Macro "cmd" [.Seq [.Text "X"]]) =
      .Macro "cmd" [.Text "X"] := by decide
example :
    expand_macros (.Seq [.Macro "textbf" [.Seq [.Text "Bold"]]]) =
      .Seq [.StyledText "Bold" .Bold] := by decide

/-! ### Layout engine (src/layout.rs)

Widths are f64 in Rust; they are modelled as exact rationals.  The one
place where layout can fail is `lines.chunks(max_lines)`, which panics
when `max_lines = 0`; the panic is modelled by returning none. -/

structure StyledRun where
  text : String
  style : TextStyle
  deriving DecidableEq, Repr

inductive LayoutNode
  | Run (run : StyledRun)
  | Glue (width : ℚ)
  deriving DecidableEq, Repr

structure HBox where
  items : List LayoutNode
  width : ℚ
  deriving DecidableEq, Repr

structure Line where
  boxes : List HBox
  width : ℚ
  deriving DecidableEq, Repr

structure Page where
  lines : List Line
  deriving DecidableEq, Repr

/-- Rust `str::split_whitespace`, fuelled (every step consumes at least
one character, so fuel = length is always sufficient). -/
def splitWsF : Nat → List Char → List (List Char)
  | 0, _ => []
  | _ + 1, [] => []
  | fuel + 1, c :: rest =>
    if c.isWhitespace then
      splitWsF fuel rest
    else
      (c :: rest.takeWhile (fun d => !d.isWhitespace)) ::
        splitWsF fuel (rest.dropWhile (fun d => !d.isWhitespace))

def split_whitespace (s : String) : List String :=
  (splitWsF s.data.length s.data).map String.mk

/-- The glue helper box in flatten_ast. -/
def glueBox (sw : ℚ) : HBox := ⟨[.Glue sw], sw⟩

/-- One word of a Text/StyledText node: a single Run whose width is the
word length times char_width. -/
def runBox (cw : ℚ) (style : TextStyle) (w : String) : HBox :=
  ⟨[.Run ⟨w, style⟩], (w.length : ℚ) * cw⟩

/-- The boxes of one Text/StyledText node: one Run box per word, glue
between successive words. -/
def wordBoxes (cw sw : ℚ) (style : TextStyle) : List String → List HBox
  | [] => []
  | [w] => [runBox cw style w]
  | w :: rest => runBox cw style w :: glueBox sw :: wordBoxes cw sw style rest

mutual

/-- flatten_ast (src/layout.rs): depth-first flattening of the tree into
HBoxes, with glue between successive children of a Seq or Macro. -/
def flatten_ast (ast : Node) (cw sw : ℚ) : List HBox :=
  match ast with
  | .Text s => wordBoxes cw sw .Normal (split_whitespace s)
  | .StyledText s style => wordBoxes cw sw style (split_whitespace s)
  | .Seq children => flattenChildren children cw sw
  | .Macro _ args => flattenChildren args cw sw

/-- The `for (i, child)` loops of flatten_ast: glue before every child
except the first. -/
def flattenChildren : List Node → ℚ → ℚ → List HBox
  | [], _, _ => []
  | [c], cw, sw => flatten_ast c cw sw
  | c :: rest, cw, sw => flatten_ast c cw sw ++ glueBox sw :: flattenChildren rest cw sw

end

/-- The state of the greedy line-breaking loop in layout. -/
structure BreakState where
  lines : List Line
  curr : List HBox
  w : ℚ
  deriving DecidableEq, Repr

/-- One iteration of the greedy line-breaking loop: if adding the box
would exceed line_width and the current line is non-empty, close the
current line; then add the box to the current line. -/
def breakStep (lineWidth : ℚ) (st : BreakState) (hb : HBox) : BreakState :=
  let st' :=
    if st.w + hb.width > lineWidth ∧ st.curr ≠ [] then
      BreakState.mk (st.lines ++ [⟨st.curr, st.w⟩]) [] 0
    else st
  ⟨st'.lines, st'.curr ++ [hb], st'.w + hb.width⟩

/-- Stage B of layout: the whole greedy line-breaking loop, including
the final flush of a non-empty current line. -/
def breakLines (lineWidth : ℚ) (hboxes : List HBox) : List Line :=
  let st := hboxes.foldl (breakStep lineWidth) ⟨[], [], 0⟩
  if st.curr ≠ [] then st.lines ++ [⟨st.curr, st.w⟩] else st.lines

/-- Rust slice::chunks, fuelled (each step removes at least one element
when the chunk size is positive; chunk size 0 only reached through the
guarded branch of layout). -/
def chunksF {α : Type} : Nat → Nat → List α → List (List α)
  | 0, _, _ => []
  | _ + 1, _, [] => []
  | fuel + 1, n, l => l.take n :: chunksF fuel n (l.drop n)

/-- Rust float-to-usize cast `as usize` for the values reachable here:
negative values clamp to 0 (saturation at usize::MAX is irrelevant at
the magnitudes involved, and the +inf case is handled at the caller). -/
def f64ToUsize (q : ℚ) : Nat := ⌊q⌋.toNat

/-- The `(800.0 / line_height).floor() as usize` computation of layout.
Rust f64 gives +inf for line_height = 0, which the cast saturates to
usize::MAX = 2^64 - 1. -/
def maxLinesPerPage (lineHeight : ℚ) : Nat :=
  if lineHeight = 0 then 2 ^ 64 - 1 else f64ToUsize (800 / lineHeight)

/-- layout (src/layout.rs): flatten, break into lines, chunk into pages.
`none` models the `slice::chunks` panic on chunk size 0. -/
def layout (ast : Node) (lineWidth lineHeight cw sw : ℚ) :
    Option (List Page) :=
  let hboxes := flatten_ast ast cw sw
  let lines := breakLines lineWidth hboxes
  let maxLines := maxLinesPerPage lineHeight
  if maxLines = 0 then none
  else some ((chunksF lines.length maxLines lines).map Page.mk)

/-! ### The library pipeline (src/lib.rs)

compile parses, expands, lays out with the fixed A4 parameters computed
in lib.rs, and renders to PDF.  PDF rendering is out of scope of the
specified core; the pipeline is modelled up to the page sequence.
The outer Option models a panic (never reached at these parameters). -/

def lineWidthPt : ℚ := (210 - 2 * 10) * (72 / (254 / 10))

def lineHeightPt : ℚ := 12 * (12 / 10)

def charWidthPt : ℚ := 12 * (5 / 10)

def spaceWidthPt : ℚ := charWidthPt

def compile (input : String) : Option (Except ParseError (List Page)) :=
  match parse input with
  | .error e => some (.error e)
  | .ok ast =>
    (layout (expand_macros ast) lineWidthPt lineHeightPt charWidthPt
      spaceWidthPt).map .ok

/-! ### Tree predicates used by the specification's invariants -/

/-- Is the node a Seq? -/
def isSeqNode : Node → Bool
  | .Seq _ => true
  | _ => false

/-- No direct child of the list is a Seq. -/
def noSeqTop (l : List Node) : Bool := l.all fun n => !isSeqNode n

/-- Is the name one of the two recognized styling commands? -/
def isStylingName (name : String) : Bool := name == "textbf" || name == "emph"

mutual

/-- Every styling (textbf/emph) Macro in the tree has at most one
argument.  This holds of every tree the parser can produce. -/
def styledArityOk : Node → Bool
  | .Text _ => true
  | .StyledText _ _ => true
  | .Seq children => styledArityOkList children
  | .Macro name args =>
    (!isStylingName name || decide (args.length ≤ 1)) && styledArityOkList args

def styledArityOkList : List Node → Bool
  | [] => true
  | n :: rest => styledArityOk n && styledArityOkList rest

end

mutual

/-- Fixed points of expansion: no Seq directly under a Seq or a Macro,
and no styling Macro with exactly one argument. -/
def isExpandedForm : Node → Bool
  | .Text _ => true
  | .StyledText _ _ => true
  | .Seq children => noSeqTop children && isExpandedFormList children
  | .Macro name args =>
    noSeqTop args && isExpandedFormList args &&
      !(isStylingName name && args.length == 1)

def isExpandedFormList : List Node → Bool
  | [] => true
  | n :: rest => isExpandedForm n && isExpandedFormList rest

end

mutual

/-- No Seq anywhere in the tree has a Seq as a direct child. -/
def noSeqInSeq : Node → Bool
  | .Text _ => true
  | .StyledText _ _ => true
  | .Seq children => noSeqTop children && noSeqInSeqList children
  | .Macro _ args => noSeqInSeqList args

def noSeqInSeqList : List Node → Bool
  | [] => true
  | n :: rest => noSeqInSeq n && noSeqInSeqList rest

end

mutual

/-- No Macro named textbf or emph anywhere in the tree has exactly one
argument. -/
def noCollapsibleStyled : Node → Bool
  | .Text _ => true
  | .StyledText _ _ => true
  | .Seq children => noCollapsibleStyledList children
  | .Macro name args =>
    !(isStylingName name && args.length == 1) && noCollapsibleStyledList args

def noCollapsibleStyledList : List Node → Bool
  | [] => true
  | n :: rest => noCollapsibleStyled n && noCollapsibleStyledList rest

end

@[simp] theorem styledArityOkList_eq_all (l : List Node) :
    styledArityOkList l = l.all styledArityOk := by
  induction l with
  | nil => rfl
  | cons n rest ih => simp [styledArityOkList, ih]

@[simp] theorem isExpandedFormList_eq_all (l : List Node) :
    isExpandedFormList l = l.all isExpandedForm := by
  induction l with
  | nil => rfl
  | cons n rest ih => simp [isExpandedFormList, ih]

@[simp] theorem noSeqInSeqList_eq_all (l : List Node) :
    noSeqInSeqList l = l.all noSeqInSeq := by
  induction l with
  | nil => rfl
  | cons n rest ih => simp [noSeqInSeqList, ih]

@[simp] theorem noCollapsibleStyledList_eq_all (l : List Node) :
    noCollapsibleStyledList l = l.all noCollapsibleStyled := by
  induction l with
  | nil => rfl
  | cons n rest ih => simp [noCollapsibleStyledList, ih]

/-- Splicing a list of trees that satisfy a predicate closed under the
Seq constructor yields a Seq-free list still satisfying the predicate. -/
theorem spliceSeqs_pred {p : Node → Bool}
    (hp : ∀ inner, p (.Seq inner) = true →
      noSeqTop inner = true ∧ ∀ m ∈ inner, p m = true) :
    ∀ {l : List Node}, (∀ n ∈ l, p n = true) →
      noSeqTop (spliceSeqs l) = true ∧ ∀ m ∈ spliceSeqs l, p m = true := by
  intro l
  induction l with
  | nil => intro _; simp [spliceSeqs, noSeqTop]
  | cons hd tl ih =>
    intro h
    have hhd := h hd (by simp)
    have htl := ih fun n hn => h n (by simp [hn])
    cases hd with
    | Seq inner =>
      have hi := hp inner hhd
      constructor
      · simp only [spliceSeqs, noSeqTop, List.all_append]
        simp only [noSeqTop] at hi htl
        simp [hi.1, htl.1]
      · intro m hm
        simp only [spliceSeqs, List.mem_append] at hm
        rcases hm with hm | hm
        · exact hi.2 m hm
        · exact htl.2 m hm
    | Text s =>
      refine ⟨?_, ?_⟩
      · simp only [spliceSeqs, noSeqTop, List.all_cons, Bool.and_eq_true]
        exact ⟨rfl, htl.1⟩
      · intro m hm
        simp only [spliceSeqs, List.mem_cons] at hm
        rcases hm with rfl | hm
        · exact hhd
        · exact htl.2 m hm
    | StyledText s style =>
      refine ⟨?_, ?_⟩
      · simp only [spliceSeqs, noSeqTop, List.all_cons, Bool.and_eq_true]
        exact ⟨rfl, htl.1⟩
      · intro m hm
        simp only [spliceSeqs, List.mem_cons] at hm
        rcases hm with rfl | hm
        · exact hhd
        · exact htl.2 m hm
    | Macro name args =>
      refine ⟨?_, ?_⟩
      · simp only [spliceSeqs, noSeqTop, List.all_cons, Bool.and_eq_true]
        exact ⟨rfl, htl.1⟩
      · intro m hm
        simp only [spliceSeqs, List.mem_cons] at hm
        rcases hm with rfl | hm
        · exact hhd
        · exact htl.2 m hm

/-- Splicing a list with no Seq at the top level changes nothing. -/
theorem spliceSeqs_eq_self : ∀ {l : List Node}, noSeqTop l = true →
    spliceSeqs l = l := by
  intro l
  induction l with
  | nil => intro _; rfl
  | cons hd tl ih =>
    intro h
    simp only [noSeqTop, List.all_cons, Bool.and_eq_true] at h
    have htl := ih (by simp [noSeqTop, h.2])
    cases hd with
    | Seq inner => simp [isSeqNode] at h
    | Text s => simp [spliceSeqs, htl]
    | StyledText s style => simp [spliceSeqs, htl]
    | Macro name args => simp [spliceSeqs, htl]

/-- expandArgs is the elementwise map of expand_macros. -/
theorem expandArgs_eq_map : ∀ l : List Node,
    expandArgs l = l.map expand_macros := by
  intro l
  induction l with
  | nil => rfl
  | cons a rest ih => simp [expandArgs, ih]

theorem expandArgs_length (l : List Node) :
    (expandArgs l).length = l.length := by
  simp [expandArgs_eq_map]

theorem noSeqInSeq_seq_closed : ∀ inner, noSeqInSeq (.Seq inner) = true →
    noSeqTop inner = true ∧ ∀ m ∈ inner, noSeqInSeq m = true := by
  intro inner h
  simp only [noSeqInSeq, Bool.and_eq_true, noSeqInSeqList_eq_all,
    List.all_eq_true] at h
  exact h

theorem isExpandedForm_seq_closed : ∀ inner, isExpandedForm (.Seq inner) = true →
    noSeqTop inner = true ∧ ∀ m ∈ inner, isExpandedForm m = true := by
  intro inner h
  simp only [isExpandedForm, Bool.and_eq_true, isExpandedFormList_eq_all,
    List.all_eq_true] at h
  exact h

mutual

/-- Expansion output never has a Seq directly inside a Seq. -/
theorem expand_noSeqInSeq : ∀ t : Node, noSeqInSeq (expand_macros t) = true
  | .Text _ => rfl
  | .StyledText _ _ => rfl
  | .Seq children => by
      have hs := spliceSeqs_pred noSeqInSeq_seq_closed
        (expandArgs_noSeqInSeq children)
      simp only [expand_macros, noSeqInSeq, Bool.and_eq_true,
        noSeqInSeqList_eq_all]
      exact ⟨hs.1, List.all_eq_true.mpr hs.2⟩
  | .Macro name args => by
      have hs := spliceSeqs_pred noSeqInSeq_seq_closed
        (expandArgs_noSeqInSeq args)
      simp only [expand_macros]
      by_cases h1 : name = "textbf" ∧ (expandArgs args).length = 1
      · simp [h1, noSeqInSeq]
      · by_cases h2 : name = "emph" ∧ (expandArgs args).length = 1
        · simp [h1, h2, noSeqInSeq]
        · simp only [h1, h2, if_false, noSeqInSeq, noSeqInSeqList_eq_all]
          exact List.all_eq_true.mpr hs.2

theorem expandArgs_noSeqInSeq : ∀ l : List Node,
    ∀ n ∈ expandArgs l, noSeqInSeq n = true
  | [] => by simp [expandArgs]
  | a :: rest => by
      intro n hn
      simp only [expandArgs, List.mem_cons] at hn
      rcases hn with rfl | hn
      · exact expand_noSeqInSeq a
      · exact expandArgs_noSeqInSeq rest n hn

end

mutual

/-- On trees whose styling macros have at most one argument, expansion
lands in the fixed-point class isExpandedForm. -/
theorem expand_isExpandedForm : ∀ t : Node, styledArityOk t = true →
    isExpandedForm (expand_macros t) = true
  | .Text _ => fun _ => rfl
  | .StyledText _ _ => fun _ => rfl
  | .Seq children => by
      intro h
      simp only [styledArityOk, styledArityOkList_eq_all, List.all_eq_true] at h
      have hs := spliceSeqs_pred isExpandedForm_seq_closed
        (expandArgs_isExpandedForm children h)
      simp only [expand_macros, isExpandedForm, Bool.and_eq_true,
        isExpandedFormList_eq_all]
      exact ⟨hs.1, List.all_eq_true.mpr hs.2⟩
  | .Macro name args => by
      intro h
      simp only [styledArityOk, Bool.and_eq_true, styledArityOkList_eq_all,
        List.all_eq_true] at h
      have hs := spliceSeqs_pred isExpandedForm_seq_closed
        (expandArgs_isExpandedForm args h.2)
      simp only [expand_macros]
      by_cases h1 : name = "textbf" ∧ (expandArgs args).length = 1
      · simp [h1, isExpandedForm]
      · by_cases h2 : name = "emph" ∧ (expandArgs args).length = 1
        · simp [h1, h2, isExpandedForm]
        · simp only [h1, h2, if_false, isExpandedForm, Bool.and_eq_true,
            isExpandedFormList_eq_all]
          refine ⟨⟨hs.1, List.all_eq_true.mpr hs.2⟩, ?_⟩
          by_cases hsty : isStylingName name = true
          · have hle : args.length ≤ 1 := by
              rcases Bool.or_eq_true _ _ |>.mp h.1 with hb | hb
              · simp [hsty] at hb
              · exact of_decide_eq_true hb
            have hea : (expandArgs args).length ≠ 1 := by
              intro hlen
              rcases Bool.or_eq_true _ _ |>.mp hsty with hn | hn
              · exact h1 ⟨by simpa using hn, hlen⟩
              · exact h2 ⟨by simpa using hn, hlen⟩
            have hzero : (expandArgs args).length = 0 := by
              have := expandArgs_length args
              omega
            have : expandArgs args = [] := List.length_eq_zero.mp hzero
            simp [this, spliceSeqs]
          · simp at hsty
            simp [hsty]

theorem expandArgs_isExpandedForm : ∀ l : List Node,
    (∀ n ∈ l, styledArityOk n = true) →
    ∀ m ∈ expandArgs l, isExpandedForm m = true
  | [] => by simp [expandArgs]
  | a :: rest => by
      intro h m hm
      simp only [expandArgs, List.mem_cons] at hm
      rcases hm with rfl | hm
      · exact expand_isExpandedForm a (h a (by simp))
      · exact expandArgs_isExpandedForm rest
          (fun n hn => h n (by simp [hn])) m hm

end

mutual

/-- Trees in the fixed-point class are fixed points of expansion. -/
theorem isExpandedForm_fixpoint : ∀ t : Node, isExpandedForm t = true →
    expand_macros t = t
  | .Text _ => fun _ => rfl
  | .StyledText _ _ => fun _ => rfl
  | .Seq children => by
      intro h
      simp only [isExpandedForm, Bool.and_eq_true, isExpandedFormList_eq_all,
        List.all_eq_true] at h
      simp only [expand_macros,
        expandArgs_fixpoint children h.2, spliceSeqs_eq_self h.1]
  | .Macro name args => by
      intro h
      simp only [isExpandedForm, Bool.and_eq_true, isExpandedFormList_eq_all,
        List.all_eq_true] at h
      have hargs := expandArgs_fixpoint args h.1.2
      have hnc := h.2
      simp only [expand_macros, hargs]
      by_cases h1 : name = "textbf" ∧ args.length = 1
      · exfalso
        simp [isStylingName, h1.1, h1.2] at hnc
      · by_cases h2 : name = "emph" ∧ args.length = 1
        · exfalso
          simp [isStylingName, h2.1, h2.2] at hnc
        · simp [h1, h2, spliceSeqs_eq_self h.1.1]

theorem expandArgs_fixpoint : ∀ l : List Node,
    (∀ n ∈ l, isExpandedForm n = true) → expandArgs l = l
  | [] => fun _ => rfl
  | a :: rest => by
      intro h
      simp only [expandArgs]
      rw [isExpandedForm_fixpoint a (h a (by simp)),
        expandArgs_fixpoint rest (fun n hn => h n (by simp [hn]))]

end

mutual

/-- The fixed-point class has no collapsible styling macro. -/
theorem isExpandedForm_noCollapsible : ∀ t : Node, isExpandedForm t = true →
    noCollapsibleStyled t = true
  | .Text _ => fun _ => rfl
  | .StyledText _ _ => fun _ => rfl
  | .Seq children => by
      intro h
      simp only [isExpandedForm, Bool.and_eq_true, isExpandedFormList_eq_all,
        List.all_eq_true] at h
      simp only [noCollapsibleStyled, noCollapsibleStyledList_eq_all,
        List.all_eq_true]
      exact fun n hn => isExpandedForm_noCollapsible n (h.2 n hn)
  | .Macro name args => by
      intro h
      simp only [isExpandedForm, Bool.and_eq_true, isExpandedFormList_eq_all,
        List.all_eq_true] at h
      simp only [noCollapsibleStyled, Bool.and_eq_true,
        noCollapsibleStyledList_eq_all, List.all_eq_true]
      refine ⟨h.2, ?_⟩
      exact fun n hn => isExpandedForm_noCollapsible n (h.1.2 n hn)

end

/-! ### Claim C4: spec-side descriptions of the collapse string -/

mutual

/-- The collapse string as the amended claim words it: a Text/StyledText
node yields its string, a Seq joins the strings of all of its children
(text or not) with one space each, any other node yields the empty
string. -/
def collectSpec : Node → String
  | .Text s => s
  | .StyledText s _ => s
  | .Seq children => collectSpecJoin children
  | .Macro _ _ => ""

def collectSpecJoin : List Node → String
  | [] => ""
  | [c] => collectSpec c
  | c :: rest => collectSpec c ++ " " ++ collectSpecJoin rest

end

mutual

/-- The depth-first Text/StyledText leaves of a tree (used to state the
claim exactly as written: one space between consecutive leaves and
nothing contributed by non-text children). -/
def textLeaves : Node → List String
  | .Text s => [s]
  | .StyledText s _ => [s]
  | .Seq children => textLeavesList children
  | .Macro _ _ => []

def textLeavesList : List Node → List String
  | [] => []
  | n :: rest => textLeaves n ++ textLeavesList rest

end

/-- The joined string exactly as claim C4 states it: the depth-first
leaves with exactly one space between consecutive leaves. -/
def claimedJoin (n : Node) : String := joinSpace (textLeaves n)

mutual

theorem collect_plain_text_eq_spec :
    ∀ n : Node, collect_plain_text n = collectSpec n
  | .Text _ => rfl
  | .StyledText _ _ => rfl
  | .Macro _ _ => rfl
  | .Seq children => by
      simp only [collect_plain_text, collectSpec]
      exact collectList_join_eq_spec children

theorem collectList_join_eq_spec :
    ∀ l : List Node, joinSpace (collectList l) = collectSpecJoin l
  | [] => rfl
  | [c] => by
      simp only [collectList, joinSpace, collectSpecJoin]
      exact collect_plain_text_eq_spec c
  | c1 :: c2 :: rest => by
      have h2 := collectList_join_eq_spec (c2 :: rest)
      simp only [collectList] at h2 ⊢
      simp only [joinSpace, collectSpecJoin]
      rw [collect_plain_text_eq_spec c1, h2]

end

/-- Claim C4 (amended): a textbf/emph macro whose expanded argument list
is exactly one node becomes a StyledText whose string is the recursive
space-join of all child strings of that node, every non-text child
contributing an empty segment (not nothing) between separators. -/
theorem styling_collapse_spec (args : List Node) (a : Node)
    (h : expandArgs args = [a]) :
    expand_macros (.Macro "textbf" args) = .StyledText (collectSpec a) .Bold ∧
    expand_macros (.Macro "emph" args) = .StyledText (collectSpec a) .Italic := by
  constructor
  · simp [expand_macros, h, collect_plain_text_eq_spec]
  · simp [expand_macros, h, collect_plain_text_eq_spec]

theorem styling_collapse_spec_witness :
    expandArgs [Node.Text "hi"] = [Node.Text "hi"] ∧
    expand_macros (.Macro "textbf" [.Text "hi"]) =
      .StyledText (collectSpec (.Text "hi")) .Bold ∧
    expand_macros (.Macro "emph" [.Text "hi"]) =
      .StyledText (collectSpec (.Text "hi")) .Italic :=
  ⟨rfl, (styling_collapse_spec [Node.Text "hi"] (.Text "hi") rfl).1,
    (styling_collapse_spec [Node.Text "hi"] (.Text "hi") rfl).2⟩

/-- Claim C4 as stated is false: a non-text child between two text
leaves leaves two spaces in the collapsed string, not one, because the
join separates all children, not just the text leaves. -/
theorem styling_collapse_double_space :
    expand_macros
        (.Macro "textbf" [.Seq [.Text "a", .Macro "foo" [], .Text "b"]]) =
      .StyledText "a  b" .Bold ∧
    claimedJoin (.Seq [.Text "a", .Macro "foo" [], .Text "b"]) = "a b" ∧
    ("a  b" : String) ≠ "a b" := by
  decide

/-! ### Claim C5 -/

/-- Every Text token the lexer ever emits is non-empty and made only of
text characters (no whitespace, brace, comment marker or backslash). -/
theorem lexListF_text_tokens : ∀ (fuel : Nat) (cs : List Char)
    (content : String), Token.Text content ∈ lexListF fuel cs →
    content ≠ "" ∧ content.data.all isTextChar = true := by
  intro fuel
  induction fuel with
  | zero => intro cs content h; simp [lexListF] at h
  | succ fuel ih =>
    intro cs content h
    match cs with
    | [] => simp [lexListF] at h
    | c :: rest =>
      simp only [lexListF] at h
      split_ifs at h with h1 h2 h3 h4 h5 h6 h7
      · exact ih _ _ h
      · exact ih _ _ h
      · rcases List.mem_cons.mp h with hc | h
        · cases hc
        · exact ih _ _ h
      · rcases List.mem_cons.mp h with hc | h
        · cases hc
        · exact ih _ _ h
      · rcases List.mem_cons.mp h with hc | h
        · cases hc
        · exact ih _ _ h
      · rcases List.mem_cons.mp h with hc | h
        · cases hc
        · exact ih _ _ h
      · exact ih _ _ h
      · rcases List.mem_cons.mp h with hc | h
        · have hct : isTextChar c = true := by
            simp only [isTextChar, Bool.not_eq_true',
              Bool.or_eq_false_iff, decide_eq_false_iff_not]
            refine ⟨⟨⟨⟨h5, h3⟩, h4⟩, h1⟩, ?_⟩
            simpa using h2
          have hdata : content = String.mk (c :: rest.takeWhile isTextChar) := by
            injection hc
          subst hdata
          refine ⟨?_, ?_⟩
          · intro heq
            have hd := congrArg String.data heq
            exact List.cons_ne_nil _ _ hd
          simp only [String.data, List.all_cons, Bool.and_eq_true]
          refine ⟨hct, ?_⟩
          rw [List.all_eq_true]
          exact fun a ha => List.mem_takeWhile_imp ha
        · exact ih _ _ h

/-- Claim C5 (amended): at any lexing position starting with a text
character, the maximal run of text characters becomes a single Text
token carrying exactly those characters, unless the position starts
with two slashes, which the lexer (beyond the documented rule list)
skips to the end of the line as a comment; moreover no emitted Text
token is empty or contains a special character. -/
theorem lexer_text_run_spec :
    (∀ (fuel : Nat) (c : Char) (rest : List Char),
      isTextChar c = true → startsCppComment (c :: rest) = false →
      lexListF (fuel + 1) (c :: rest) =
        Token.Text (String.mk ((c :: rest).takeWhile isTextChar)) ::
          lexListF fuel ((c :: rest).dropWhile isTextChar)) ∧
    (∀ s content, Token.Text content ∈ lex s →
      content ≠ "" ∧ content.data.all isTextChar = true) := by
  constructor
  · intro fuel c rest hc hcpp
    have hc0 := hc
    simp only [isTextChar, Bool.not_eq_true', Bool.or_eq_false_iff,
      decide_eq_false_iff_not] at hc
    obtain ⟨⟨⟨⟨hbs, hlb⟩, hrb⟩, hpc⟩, hws⟩ := hc
    rw [List.takeWhile_cons_of_pos hc0, List.dropWhile_cons_of_pos hc0]
    simp [lexListF, hbs, hlb, hrb, hpc, hws, hcpp]
  · intro s content h
    exact lexListF_text_tokens _ _ _ h

theorem lexer_text_run_spec_witness :
    isTextChar 'a' = true ∧
    startsCppComment ('a' :: ('b' :: ' ' :: 'c' :: [])) = false ∧
    lexListF 5 ('a' :: 'b' :: ' ' :: 'c' :: []) =
      Token.Text (String.mk (('a' :: 'b' :: ' ' :: 'c' :: []).takeWhile
        isTextChar)) ::
        lexListF 4 (('a' :: 'b' :: ' ' :: 'c' :: []).dropWhile isTextChar) ∧
    ("ab" ≠ "" ∧ "ab".data.all isTextChar = true) :=
  ⟨by decide, by decide,
    lexer_text_run_spec.1 4 'a' ('b' :: ' ' :: 'c' :: []) (by decide)
      (by decide),
    lexer_text_run_spec.2 "ab c" "ab" (by decide)⟩

/-- Claim C5 as stated is false: the string of three text characters
slash, slash, x is a maximal run free of backslash, braces, whitespace
and the comment marker, yet the lexer emits no token at all for it (the
undocumented C++-style comment rule wins over the Text rule). -/
theorem lexer_slashslash_not_text :
    ("//x" : String).data.all isTextChar = true ∧
    lex "//x" = [] ∧ lex "//x" ≠ [Token.Text "//x"] := by
  decide

/-! ### Claim C1 -/

/-- Claim C1 (layout totality) fails on the code: at line_height = 1600
the page budget computation floors 800/1600 to zero and
`lines.chunks(0)` panics, so layout does not return a page sequence
(none models the panic). -/
theorem layout_panics_on_large_line_height :
    layout (.Seq [.Text "Hello"]) 100 1600 6 6 = none := by
  have h : maxLinesPerPage 1600 = 0 := by
    norm_num [maxLinesPerPage, f64ToUsize]
  simp [layout, h]

/-! ### Claim C2 -/

/-- Claim C2 (amended): expansion is idempotent on every tree whose
textbf/emph macros all have at most one argument; every tree the parser
produces is of this shape. -/
theorem expand_macros_idempotent (t : Node) (h : styledArityOk t = true) :
    expand_macros (expand_macros t) = expand_macros t :=
  isExpandedForm_fixpoint _ (expand_isExpandedForm t h)

theorem expand_macros_idempotent_witness :
    styledArityOk (.Seq [.Macro "textbf" [.Seq [.Text "Bold"]], .Text "x"]) =
      true ∧
    expand_macros (expand_macros
        (.Seq [.Macro "textbf" [.Seq [.Text "Bold"]], .Text "x"])) =
      expand_macros (.Seq [.Macro "textbf" [.Seq [.Text "Bold"]], .Text "x"]) :=
  ⟨by decide, expand_macros_idempotent _ (by decide)⟩

/-- Claim C2 as stated is false: a textbf macro with two arguments whose
splice leaves exactly one argument collapses only on the second pass. -/
theorem expand_macros_not_idempotent :
    expand_macros (expand_macros (.Macro "textbf" [.Seq [], .Text "x"])) ≠
      expand_macros (.Macro "textbf" [.Seq [], .Text "x"]) := by
  decide

/-! ### Claim C3 -/

/-- Claim C3 (amended): expansion output never has a Seq directly inside
a Seq (for every input tree), and, for every tree whose textbf/emph
macros have at most one argument, no textbf/emph macro with exactly one
argument survives expansion. -/
theorem expand_macros_invariants (t : Node) :
    noSeqInSeq (expand_macros t) = true ∧
    (styledArityOk t = true → noCollapsibleStyled (expand_macros t) = true) :=
  ⟨expand_noSeqInSeq t,
    fun h => isExpandedForm_noCollapsible _ (expand_isExpandedForm t h)⟩

theorem expand_macros_invariants_witness :
    noSeqInSeq (expand_macros
      (.Seq [.Macro "emph" [.Seq [.Text "it"]], .Seq [.Text "a"]])) = true ∧
    noCollapsibleStyled (expand_macros
      (.Seq [.Macro "emph" [.Seq [.Text "it"]], .Seq [.Text "a"]])) = true :=
  ⟨(expand_macros_invariants _).1,
    (expand_macros_invariants _).2 (by decide)⟩

/-- Claim C3 as stated is false: expanding a textbf macro with two
arguments, one of which is an empty Seq, leaves a textbf macro with
exactly one argument in the output. -/
theorem expand_macros_styled_survives :
    expand_macros (.Macro "textbf" [.Seq [], .Text "y"]) =
      .Macro "textbf" [.Text "y"] ∧
    noCollapsibleStyled
      (expand_macros (.Macro "textbf" [.Seq [], .Text "y"])) = false := by
  decide

/-! ### Claim C6 -/

/-- Total width of a list of boxes. -/
def sumWidths (l : List HBox) : ℚ := (l.map HBox.width).sum

/-- All the boxes of a list of lines, in order. -/
def linesJoin (lines : List Line) : List HBox :=
  (lines.map Line.boxes).flatten

/-- Claim C6: a box that makes the accumulated width exactly equal to
line_width stays on the current line (the comparison is strict), and a
box that strictly exceeds it starts a new line provided the current
line is non-empty. -/
theorem line_break_boundary (lw : ℚ) (st : BreakState) (hb : HBox) :
    (st.w + hb.width = lw →
      breakStep lw st hb =
        ⟨st.lines, st.curr ++ [hb], st.w + hb.width⟩) ∧
    (st.w + hb.width > lw → st.curr ≠ [] →
      breakStep lw st hb =
        ⟨st.lines ++ [⟨st.curr, st.w⟩], [hb], hb.width⟩) := by
  constructor
  · intro heq
    have hno : ¬(st.w + hb.width > lw ∧ st.curr ≠ []) := by
      rw [heq]; simp
    simp [breakStep, hno]
  · intro hgt hne
    simp [breakStep, hgt, hne]

theorem line_break_boundary_witness :
    ((4 : ℚ) + 6 = 10 ∧
      breakStep 10 ⟨[], [⟨[.Glue 4], 4⟩], 4⟩ ⟨[.Glue 6], 6⟩ =
        ⟨[], [⟨[.Glue 4], 4⟩, ⟨[.Glue 6], 6⟩], 4 + 6⟩) ∧
    ((4 : ℚ) + 7 > 10 ∧
      breakStep 10 ⟨[], [⟨[.Glue 4], 4⟩], 4⟩ ⟨[.Glue 7], 7⟩ =
        ⟨[⟨[⟨[.Glue 4], 4⟩], 4⟩], [⟨[.Glue 7], 7⟩], 7⟩) := by
  refine ⟨⟨by norm_num, ?_⟩, by norm_num, ?_⟩
  · exact (line_break_boundary 10 ⟨[], [⟨[.Glue 4], 4⟩], 4⟩ ⟨[.Glue 6], 6⟩).1
      (by norm_num)
  · exact (line_break_boundary 10 ⟨[], [⟨[.Glue 4], 4⟩], 4⟩ ⟨[.Glue 7], 7⟩).2
      (by norm_num) (by simp)

/-! ### Invariants of the line-breaking fold (shared by C7 and C10) -/

/-- The invariants of the greedy line-breaking loop, by one fold
induction: the processed boxes are exactly the boxes of the emitted
lines followed by the current line, the accumulator equals the current
line's total width, every emitted line is non-empty with the recorded
width equal to the sum of its box widths, and (for non-negative widths)
a box wider than line_width is always alone in its line. -/
theorem breakFold_master (lw : ℚ) : ∀ (hbs : List HBox) (st : BreakState),
    st.w = sumWidths st.curr →
    (linesJoin (hbs.foldl (breakStep lw) st).lines ++
        (hbs.foldl (breakStep lw) st).curr =
      linesJoin st.lines ++ st.curr ++ hbs) ∧
    ((hbs.foldl (breakStep lw) st).w =
      sumWidths (hbs.foldl (breakStep lw) st).curr) ∧
    (∀ line ∈ (hbs.foldl (breakStep lw) st).lines,
      line ∈ st.lines ∨
        (line.boxes ≠ [] ∧ line.width = sumWidths line.boxes)) ∧
    ((∀ x ∈ hbs, 0 ≤ x.width) → 0 ≤ st.w →
      (∀ b ∈ st.curr, lw < b.width → st.curr = [b]) →
      (0 ≤ (hbs.foldl (breakStep lw) st).w ∧
       (∀ b ∈ (hbs.foldl (breakStep lw) st).curr, lw < b.width →
         (hbs.foldl (breakStep lw) st).curr = [b]) ∧
       ∀ line ∈ (hbs.foldl (breakStep lw) st).lines,
         line ∈ st.lines ∨
           ∀ b ∈ line.boxes, lw < b.width → line.boxes = [b])) := by
  intro hbs
  induction hbs with
  | nil =>
    intro st hw
    refine ⟨by simp, hw, fun line hl => Or.inl hl, ?_⟩
    intro _ hw0 hsing
    exact ⟨hw0, hsing, fun line hl => Or.inl hl⟩
  | cons hb rest ih =>
    intro st hw
    rw [List.foldl_cons]
    by_cases hcond : st.w + hb.width > lw ∧ st.curr ≠ []
    · have hstep : breakStep lw st hb =
          ⟨st.lines ++ [⟨st.curr, st.w⟩], [hb], hb.width⟩ := by
        simp [breakStep, hcond]
      rw [hstep]
      have hw1 : (BreakState.mk (st.lines ++ [⟨st.curr, st.w⟩]) [hb]
          hb.width).w = sumWidths [hb] := by
        simp [sumWidths]
      obtain ⟨ih1, ih2, ih3, ih4⟩ := ih _ hw1
      refine ⟨?_, ih2, ?_, ?_⟩
      · rw [ih1]
        simp [linesJoin]
      · intro line hl
        rcases ih3 line hl with hl' | hl'
        · simp only [List.mem_append, List.mem_singleton] at hl'
          rcases hl' with h | rfl
          · exact Or.inl h
          · exact Or.inr ⟨hcond.2, hw⟩
        · exact Or.inr hl'
      · intro hpos hw0 hsing
        have hb0 : (0 : ℚ) ≤ hb.width := hpos hb (by simp)
        obtain ⟨g1, g2, g3⟩ := ih4 (fun x hx => hpos x (by simp [hx])) hb0
          (by
            intro b hbm hover
            simp only [List.mem_singleton] at hbm
            subst hbm
            rfl)
        refine ⟨g1, g2, ?_⟩
        intro line hl
        rcases g3 line hl with hl' | hl'
        · simp only [List.mem_append, List.mem_singleton] at hl'
          rcases hl' with h | rfl
          · exact Or.inl h
          · exact Or.inr fun b hbm hover => hsing b hbm hover
        · exact Or.inr hl'
    · have hstep : breakStep lw st hb =
          ⟨st.lines, st.curr ++ [hb], st.w + hb.width⟩ := by
        simp [breakStep, hcond]
      rw [hstep]
      have hw1 : (BreakState.mk st.lines (st.curr ++ [hb])
          (st.w + hb.width)).w = sumWidths (st.curr ++ [hb]) := by
        simp [sumWidths, hw]
      obtain ⟨ih1, ih2, ih3, ih4⟩ := ih _ hw1
      refine ⟨?_, ih2, ih3, ?_⟩
      · rw [ih1]
        simp
      · intro hpos hw0 hsing
        have hb0 : (0 : ℚ) ≤ hb.width := hpos hb (by simp)
        have hnot : ¬(st.w + hb.width > lw) ∨ st.curr = [] := by
          rcases not_and_or.mp hcond with h | h
          · exact Or.inl h
          · exact Or.inr (not_not.mp h)
        have hsing1 : ∀ b ∈ st.curr ++ [hb], lw < b.width →
            st.curr ++ [hb] = [b] := by
          intro b hbm hover
          rcases List.mem_append.mp hbm with hbc | hbe
          · have hc := hsing b hbc hover
            exfalso
            rcases hnot with h | h
            · have hwb : st.w = b.width := by
                rw [hw, hc]
                simp [sumWidths]
              push_neg at h
              linarith
            · rw [h] at hbc
              simp at hbc
          · simp only [List.mem_singleton] at hbe
            subst hbe
            have hcurr : st.curr = [] := by
              by_contra hne
              rcases hnot with h | h
              · push_neg at h
                linarith
              · exact hne h
            rw [hcurr]
            rfl
        exact ih4 (fun x hx => hpos x (by simp [hx]))
          (by
            show (0 : ℚ) ≤ st.w + hb.width
            linarith) hsing1

/-- The line breaker loses no box and records correct line widths. -/
theorem breakLines_wf (lw : ℚ) (hbs : List HBox) :
    linesJoin (breakLines lw hbs) = hbs ∧
    ∀ line ∈ breakLines lw hbs,
      line.boxes ≠ [] ∧ line.width = sumWidths line.boxes := by
  obtain ⟨h1, h2, h3, -⟩ :=
    breakFold_master lw hbs ⟨[], [], 0⟩ (by simp [sumWidths])
  unfold breakLines
  by_cases hc : (hbs.foldl (breakStep lw) ⟨[], [], 0⟩).curr ≠ []
  · rw [if_pos hc]
    constructor
    · simp only [linesJoin, List.map_append, List.flatten_append] at h1 ⊢
      simpa using h1
    · intro line hl
      rcases List.mem_append.mp hl with h | h
      · rcases h3 line h with h' | h'
        · simp at h'
        · exact h'
      · simp only [List.mem_singleton] at h
        subst h
        exact ⟨hc, h2⟩
  · rw [if_neg hc]
    push_neg at hc
    constructor
    · rw [hc] at h1
      simpa using h1
    · intro line hl
      rcases h3 line hl with h' | h'
      · simp at h'
      · exact h'

/-- Every box of every emitted line is one of the input boxes. -/
theorem breakLines_box_mem (lw : ℚ) (hbs : List HBox) :
    ∀ line ∈ breakLines lw hbs, ∀ b ∈ line.boxes, b ∈ hbs := by
  intro line hl b hbm
  rw [← (breakLines_wf lw hbs).1]
  exact List.mem_flatten.mpr ⟨line.boxes, List.mem_map_of_mem _ hl, hbm⟩

/-! ### Claim C7 -/

/-- Claim C7: no box is ever split or dropped (the lines partition the
box sequence), a box strictly wider than line_width is always alone in
its line (for non-negative widths), and layout still succeeds whenever
the page budget is non-degenerate. -/
theorem oversized_box_alone (lw : ℚ) (hbs : List HBox) :
    linesJoin (breakLines lw hbs) = hbs ∧
    ((∀ x ∈ hbs, 0 ≤ x.width) →
      ∀ line ∈ breakLines lw hbs, ∀ b ∈ line.boxes, lw < b.width →
        line.boxes = [b]) ∧
    (∀ (ast : Node) (lh cw sw : ℚ), maxLinesPerPage lh ≠ 0 →
      ∃ pages, layout ast lw lh cw sw = some pages) := by
  refine ⟨(breakLines_wf lw hbs).1, ?_, ?_⟩
  · intro hpos line hl b hbm hover
    obtain ⟨-, -, -, h4⟩ :=
      breakFold_master lw hbs ⟨[], [], 0⟩ (by simp [sumWidths])
    obtain ⟨-, g2, g3⟩ := h4 hpos le_rfl (by simp)
    unfold breakLines at hl
    by_cases hc : (hbs.foldl (breakStep lw) ⟨[], [], 0⟩).curr ≠ []
    · rw [if_pos hc] at hl
      rcases List.mem_append.mp hl with h | h
      · rcases g3 line h with h' | h'
        · simp at h'
        · exact h' b hbm hover
      · simp only [List.mem_singleton] at h
        subst h
        exact g2 b hbm hover
    · rw [if_neg hc] at hl
      rcases g3 line hl with h' | h'
      · simp at h'
      · exact h' b hbm hover
  · intro ast lh cw sw hm
    simp only [layout]
    rw [if_neg hm]
    exact ⟨_, rfl⟩

theorem oversized_box_alone_witness :
    linesJoin (breakLines 10 [⟨[.Glue 3], 3⟩, ⟨[.Glue 14], 14⟩]) =
      [⟨[.Glue 3], 3⟩, ⟨[.Glue 14], 14⟩] ∧
    (∀ line ∈ breakLines 10 [⟨[.Glue 3], 3⟩, ⟨[.Glue 14], 14⟩],
      ∀ b ∈ line.boxes, 10 < b.width → line.boxes = [b]) ∧
    (∃ pages,
      layout (.Text "ThisIsAVeryLongWordWithoutSpaces") 10 20 6 6 =
        some pages) := by
  have hpos : ∀ x ∈ [HBox.mk [.Glue 3] 3, HBox.mk [.Glue 14] 14],
      (0 : ℚ) ≤ x.width := by
    intro x hx
    fin_cases hx <;> norm_num
  have hm : maxLinesPerPage 20 ≠ 0 := by
    norm_num [maxLinesPerPage, f64ToUsize]
  exact ⟨(oversized_box_alone 10 [⟨[.Glue 3], 3⟩, ⟨[.Glue 14], 14⟩]).1,
    (oversized_box_alone 10 [⟨[.Glue 3], 3⟩, ⟨[.Glue 14], 14⟩]).2.1 hpos,
    (oversized_box_alone 10 [⟨[.Glue 3], 3⟩, ⟨[.Glue 14], 14⟩]).2.2
      (.Text "ThisIsAVeryLongWordWithoutSpaces") 20 6 6 hm⟩

/-! ### Claim C10 -/

/-- Well-formedness of a produced box: exactly one item, and the width
matches that item (word length times char_width for a run, space_width
for glue). -/
def boxItemOk (cw sw : ℚ) (b : HBox) : Prop :=
  (∃ r : StyledRun, b.items = [.Run r] ∧
    b.width = (r.text.length : ℚ) * cw) ∨
  (b.items = [.Glue sw] ∧ b.width = sw)

theorem wordBoxes_ok (cw sw : ℚ) (style : TextStyle) :
    ∀ ws : List String, ∀ b ∈ wordBoxes cw sw style ws, boxItemOk cw sw b
  | [] => by simp [wordBoxes]
  | [w] => by
      intro b hb
      simp only [wordBoxes, List.mem_singleton] at hb
      subst hb
      exact Or.inl ⟨⟨w, style⟩, rfl, rfl⟩
  | w :: w2 :: rest => by
      intro b hb
      simp only [wordBoxes, List.mem_cons] at hb
      rcases hb with rfl | rfl | hb
      · exact Or.inl ⟨⟨w, style⟩, rfl, rfl⟩
      · exact Or.inr ⟨rfl, rfl⟩
      · exact wordBoxes_ok cw sw style (w2 :: rest) b hb

mutual

theorem flatten_ast_ok : ∀ (ast : Node) (cw sw : ℚ),
    ∀ b ∈ flatten_ast ast cw sw, boxItemOk cw sw b
  | .Text s, cw, sw => by
      intro b hb
      simp only [flatten_ast] at hb
      exact wordBoxes_ok cw sw .Normal _ b hb
  | .StyledText s style, cw, sw => by
      intro b hb
      simp only [flatten_ast] at hb
      exact wordBoxes_ok cw sw style _ b hb
  | .Seq children, cw, sw => by
      intro b hb
      simp only [flatten_ast] at hb
      exact flattenChildren_ok children cw sw b hb
  | .Macro name args, cw, sw => by
      intro b hb
      simp only [flatten_ast] at hb
      exact flattenChildren_ok args cw sw b hb

theorem flattenChildren_ok : ∀ (l : List Node) (cw sw : ℚ),
    ∀ b ∈ flattenChildren l cw sw, boxItemOk cw sw b
  | [], _, _ => by simp [flattenChildren]
  | [c], cw, sw => by
      intro b hb
      simp only [flattenChildren] at hb
      exact flatten_ast_ok c cw sw b hb
  | c :: c2 :: rest, cw, sw => by
      intro b hb
      simp only [flattenChildren, List.mem_append, List.mem_cons] at hb
      rcases hb with hb | rfl | hb
      · exact flatten_ast_ok c cw sw b hb
      · exact Or.inr ⟨rfl, rfl⟩
      · exact flattenChildren_ok (c2 :: rest) cw sw b
          (by simpa [flattenChildren] using hb)

end

theorem chunksF_mem {α : Type} : ∀ (fuel n : Nat) (l : List α), n ≠ 0 →
    ∀ chunk ∈ chunksF fuel n l, chunk ≠ [] ∧ ∀ x ∈ chunk, x ∈ l := by
  intro fuel
  induction fuel with
  | zero =>
    intro n l hn chunk hc
    simp [chunksF] at hc
  | succ fuel ih =>
    intro n l hn chunk hc
    match l with
    | [] => simp [chunksF] at hc
    | x :: xs =>
      simp only [chunksF, List.mem_cons] at hc
      rcases hc with rfl | hc
      · constructor
        · cases n with
          | zero => exact absurd rfl hn
          | succ m => simp
        · intro y hy
          exact List.take_subset _ _ hy
      · obtain ⟨h1, h2⟩ := ih n _ hn chunk hc
        exact ⟨h1, fun y hy => List.drop_subset _ _ (h2 y hy)⟩

/-- Claim C10: in every page sequence layout returns, every page has at
least one line, every line is non-empty with recorded width the sum of
its box widths, and every box holds exactly one item whose width
matches it. -/
theorem layout_output_invariants (ast : Node) (lw lh cw sw : ℚ)
    (pages : List Page) (h : layout ast lw lh cw sw = some pages) :
    ∀ pg ∈ pages, pg.lines ≠ [] ∧
      ∀ line ∈ pg.lines, line.boxes ≠ [] ∧
        line.width = sumWidths line.boxes ∧
        ∀ b ∈ line.boxes, boxItemOk cw sw b := by
  simp only [layout] at h
  by_cases hm : maxLinesPerPage lh = 0
  · rw [if_pos hm] at h
    cases h
  · rw [if_neg hm] at h
    injection h with h
    subst h
    intro pg hpg
    obtain ⟨chunk, hchunk, rfl⟩ := List.mem_map.mp hpg
    obtain ⟨hne, hsub⟩ := chunksF_mem _ _ _ hm chunk hchunk
    refine ⟨hne, ?_⟩
    intro line hl
    have hlmem : line ∈ breakLines lw (flatten_ast ast cw sw) :=
      hsub line hl
    obtain ⟨hb1, hb2⟩ := (breakLines_wf lw _).2 line hlmem
    refine ⟨hb1, hb2, ?_⟩
    intro b hbm
    exact flatten_ast_ok ast cw sw b
      (breakLines_box_mem lw _ line hlmem b hbm)

/-- Concrete evaluation of layout on the end-to-end example of the
specification. -/
theorem layout_hello_eval :
    layout (.Seq [.Text "Hello world"]) 100 20 6 6 =
      some [⟨[⟨[⟨[.Run ⟨"Hello", .Normal⟩], 30⟩, ⟨[.Glue 6], 6⟩,
               ⟨[.Run ⟨"world", .Normal⟩], 30⟩], 66⟩]⟩] := by
  have hsplit : split_whitespace "Hello world" = ["Hello", "world"] := by
    decide
  have hl1 : ("Hello".length : ℚ) * 6 = 30 := by
    norm_num [show "Hello".length = 5 from rfl]
  have hl2 : ("world".length : ℚ) * 6 = 30 := by
    norm_num [show "world".length = 5 from rfl]
  simp [layout, flatten_ast, flattenChildren, hsplit, wordBoxes, runBox,
    glueBox, breakLines, breakStep, chunksF, maxLinesPerPage, f64ToUsize,
    hl1, hl2]
  norm_num
  rfl

theorem layout_output_invariants_witness :
    layout (.Seq [.Text "Hello world"]) 100 20 6 6 =
      some [⟨[⟨[⟨[.Run ⟨"Hello", .Normal⟩], 30⟩, ⟨[.Glue 6], 6⟩,
               ⟨[.Run ⟨"world", .Normal⟩], 30⟩], 66⟩]⟩] ∧
    ∀ pg ∈ [Page.mk [⟨[⟨[.Run ⟨"Hello", .Normal⟩], 30⟩, ⟨[.Glue 6], 6⟩,
               ⟨[.Run ⟨"world", .Normal⟩], 30⟩], 66⟩]],
      pg.lines ≠ [] ∧
      ∀ line ∈ pg.lines, line.boxes ≠ [] ∧
        line.width = sumWidths line.boxes ∧
        ∀ b ∈ line.boxes, boxItemOk 6 6 b :=
  ⟨layout_hello_eval,
    layout_output_invariants _ 100 20 6 6 _ layout_hello_eval⟩

/-! ### Claim C8 -/

/-- Claim C8: the pipeline fails exactly when the parser fails — an
unclosed group and a trailing unmatched closing brace are parse errors,
every parse error propagates unchanged, and every successful parse
yields a successful compilation. -/
theorem compile_fails_iff_parse_fails :
    parse "\x7bA" = .error (.UnclosedGroup 0) ∧
    parse "\x7d" = .error (.TrailingTokens 0) ∧
    (∀ s ast, parse s = .ok ast →
      ∃ pages, compile s = some (.ok pages)) ∧
    (∀ s e, parse s = .error e → compile s = some (.error e)) := by
  refine ⟨by decide, by decide, ?_, ?_⟩
  · intro s ast h
    have hm : maxLinesPerPage lineHeightPt ≠ 0 := by
      norm_num [maxLinesPerPage, lineHeightPt, f64ToUsize]
    simp only [compile, h]
    simp only [layout]
    rw [if_neg hm]
    exact ⟨_, rfl⟩
  · intro s e h
    simp [compile, h]

theorem compile_fails_iff_parse_fails_witness :
    parse "A" = .ok (.Seq [.Text "A"]) ∧
    (∃ pages, compile "A" = some (.ok pages)) :=
  ⟨by decide,
    compile_fails_iff_parse_fails.2.2.1 "A" (.Seq [.Text "A"]) (by decide)⟩

/-! ### Claim C9 -/

mutual

/-- No StyledText node anywhere in the tree. -/
def noStyledText : Node → Bool
  | .Text _ => true
  | .StyledText _ _ => false
  | .Seq children => noStyledTextList children
  | .Macro _ args => noStyledTextList args

def noStyledTextList : List Node → Bool
  | [] => true
  | n :: rest => noStyledText n && noStyledTextList rest

end

mutual

/-- Every Macro node anywhere in the tree has at most one argument. -/
def macroArgsAtMostOne : Node → Bool
  | .Text _ => true
  | .StyledText _ _ => true
  | .Seq children => macroArgsAtMostOneList children
  | .Macro _ args => decide (args.length ≤ 1) && macroArgsAtMostOneList args

def macroArgsAtMostOneList : List Node → Bool
  | [] => true
  | n :: rest => macroArgsAtMostOne n && macroArgsAtMostOneList rest

end

@[simp] theorem noStyledTextList_eq_all (l : List Node) :
    noStyledTextList l = l.all noStyledText := by
  induction l with
  | nil => rfl
  | cons n rest ih => simp [noStyledTextList, ih]

@[simp] theorem macroArgsAtMostOneList_eq_all (l : List Node) :
    macroArgsAtMostOneList l = l.all macroArgsAtMostOne := by
  induction l with
  | nil => rfl
  | cons n rest ih => simp [macroArgsAtMostOneList, ih]

/-- The shape invariant of parser output. -/
def parserGood (n : Node) : Prop :=
  noStyledText n = true ∧ macroArgsAtMostOne n = true

theorem parserGood_seq {children : List Node}
    (h : ∀ c ∈ children, parserGood c) : parserGood (.Seq children) := by
  constructor
  · simp only [noStyledText, noStyledTextList_eq_all, List.all_eq_true]
    exact fun c hc => (h c hc).1
  · simp only [macroArgsAtMostOne, macroArgsAtMostOneList_eq_all,
      List.all_eq_true]
    exact fun c hc => (h c hc).2

/-- All three parser phases preserve the shape invariant. -/
theorem parser_shape_aux : ∀ (fuel : Nat) (toks : List Token),
    (∀ pos children node p,
      parseSequenceAux fuel toks pos children = .ok (node, p) →
      (∀ c ∈ children, parserGood c) → parserGood node) ∧
    (∀ pos node p, parseNode fuel toks pos = .ok (node, p) →
      parserGood node) ∧
    (∀ pos node p, parseGroup fuel toks pos = .ok (node, p) →
      parserGood node) := by
  intro fuel
  induction fuel with
  | zero =>
    intro toks
    refine ⟨?_, ?_, ?_⟩ <;> intro pos
    · intro children node p h
      simp [parseSequenceAux] at h
    · intro node p h
      simp [parseNode] at h
    · intro node p h
      simp [parseGroup] at h
  | succ fuel ih =>
    intro toks
    obtain ⟨ihS, ihN, ihG⟩ := ih toks
    refine ⟨?_, ?_, ?_⟩
    · intro pos children node p h hch
      simp only [parseSequenceAux] at h
      cases htok : toks[pos]? with
      | none =>
        rw [htok] at h
        simp only [Except.ok.injEq, Prod.mk.injEq] at h
        obtain ⟨rfl, rfl⟩ := h
        exact parserGood_seq hch
      | some t =>
        rw [htok] at h
        have key : ((match parseNode fuel toks pos with
            | Except.error e => (Except.error e : Except ParseError (Node × Nat))
            | Except.ok (n2, p2) =>
              parseSequenceAux fuel toks p2 (children ++ [n2])) =
              Except.ok (node, p)) → parserGood node := by
          intro h'
          cases hN : parseNode fuel toks pos with
          | error e => simp [hN] at h'
          | ok pr =>
            obtain ⟨n2, p2⟩ := pr
            rw [hN] at h'
            replace h' : parseSequenceAux fuel toks p2 (children ++ [n2]) =
                .ok (node, p) := h'
            refine ihS p2 (children ++ [n2]) node p h' ?_
            intro c hc
            rcases List.mem_append.mp hc with hc | hc
            · exact hch c hc
            · simp only [List.mem_singleton] at hc
              subst hc
              exact ihN pos _ _ hN
        cases t
        case RBrace =>
          simp only [Except.ok.injEq, Prod.mk.injEq] at h
          obtain ⟨rfl, rfl⟩ := h
          exact parserGood_seq hch
        all_goals exact key h
    · intro pos node p h
      simp only [parseNode] at h
      cases htok : toks[pos]? with
      | none =>
        rw [htok] at h
        simp at h
      | some t =>
        rw [htok] at h
        cases t
        case Text s =>
          simp only [Except.ok.injEq, Prod.mk.injEq] at h
          obtain ⟨rfl, rfl⟩ := h
          exact ⟨rfl, rfl⟩
        case Command name =>
          replace h :
              (if toks[pos + 1]? = some Token.LBrace then
                match parseGroup fuel toks (pos + 1) with
                | Except.error e =>
                  (Except.error e : Except ParseError (Node × Nat))
                | Except.ok (argNode, newPos) =>
                  Except.ok (Node.Macro name [argNode], newPos)
              else Except.ok (Node.Macro name [], pos + 1)) =
                Except.ok (node, p) := h
          by_cases hlb : toks[pos + 1]? = some Token.LBrace
          · rw [if_pos hlb] at h
            cases hG : parseGroup fuel toks (pos + 1) with
            | error e => simp [hG] at h
            | ok pr =>
              obtain ⟨arg, p2⟩ := pr
              rw [hG] at h
              simp only [Except.ok.injEq, Prod.mk.injEq] at h
              obtain ⟨rfl, rfl⟩ := h
              have harg := ihG (pos + 1) arg p2 hG
              constructor
              · simp only [noStyledText, noStyledTextList_eq_all,
                  List.all_eq_true]
                intro c hc
                simp only [List.mem_singleton] at hc
                subst hc
                exact harg.1
              · simp only [macroArgsAtMostOne, Bool.and_eq_true,
                  macroArgsAtMostOneList_eq_all, List.all_eq_true]
                refine ⟨rfl, ?_⟩
                intro c hc
                simp only [List.mem_singleton] at hc
                subst hc
                exact harg.2
          · rw [if_neg hlb] at h
            simp only [Except.ok.injEq, Prod.mk.injEq] at h
            obtain ⟨rfl, rfl⟩ := h
            exact ⟨rfl, rfl⟩
        case LBrace =>
          exact ihG pos node p h
        all_goals simp at h
    · intro pos node p h
      simp only [parseGroup] at h
      cases htok : toks[pos]? with
      | none =>
        rw [htok] at h
        simp at h
      | some t =>
        rw [htok] at h
        cases t
        case LBrace =>
          replace h :
              (match parseSequenceAux fuel toks (pos + 1) [] with
               | Except.error e =>
                 (Except.error e : Except ParseError (Node × Nat))
               | Except.ok (inner, cur) =>
                 if toks[cur]? = some Token.RBrace then
                   Except.ok (inner, cur + 1)
                 else Except.error (ParseError.UnclosedGroup pos)) =
                Except.ok (node, p) := h
          cases hS : parseSequenceAux fuel toks (pos + 1) [] with
          | error e => simp [hS] at h
          | ok pr =>
            obtain ⟨inner, cur⟩ := pr
            rw [hS] at h
            replace h :
                (if toks[cur]? = some Token.RBrace then
                  (Except.ok (inner, cur + 1) : Except ParseError (Node × Nat))
                else Except.error (ParseError.UnclosedGroup pos)) =
                  Except.ok (node, p) := h
            by_cases hrb : toks[cur]? = some Token.RBrace
            · rw [if_pos hrb] at h
              simp only [Except.ok.injEq, Prod.mk.injEq] at h
              obtain ⟨rfl, rfl⟩ := h
              exact ihS (pos + 1) [] _ _ hS (by simp)
            · rw [if_neg hrb] at h
              simp at h
        all_goals simp at h

/-- Claim C9: a successfully parsed tree never contains StyledText and
every Macro node in it has at most one argument. -/
theorem parse_output_shape (s : String) (ast : Node)
    (h : parse s = .ok ast) :
    noStyledText ast = true ∧ macroArgsAtMostOne ast = true := by
  simp only [parse] at h
  cases hS : parseSequenceAux (3 * (lex s).length + 3) (lex s) 0 [] with
  | error e =>
    rw [hS] at h
    cases h
  | ok pr =>
    obtain ⟨ast', pos⟩ := pr
    rw [hS] at h
    replace h :
        (if pos = (lex s).length then
          (Except.ok ast' : Except ParseError Node)
         else Except.error (ParseError.TrailingTokens pos)) =
          Except.ok ast := h
    by_cases hp : pos = (lex s).length
    · rw [if_pos hp] at h
      simp only [Except.ok.injEq] at h
      subst h
      exact (parser_shape_aux _ _).1 0 [] ast' pos hS (by simp)
    · rw [if_neg hp] at h
      simp at h

theorem parse_output_shape_witness :
    parse "\\textbf\x7bBold\x7d" =
      .ok (.Seq [.Macro "textbf" [.Seq [.Text "Bold"]]]) ∧
    (noStyledText (.Seq [.Macro "textbf" [.Seq [.Text "Bold"]]]) = true ∧
     macroArgsAtMostOne (.Seq [.Macro "textbf" [.Seq [.Text "Bold"]]]) =
       true) :=
  ⟨by decide, parse_output_shape "\\textbf\x7bBold\x7d" _ (by decide)⟩

end LatexRs
